import Mathlib

/-!
Verification development for the terminal_gfx renderer.

The Rust source is shallowly embedded: machine floats (`f32`) are modelled
by exact rational arithmetic `ℚ` (with explicit floor / round / truncation
where the code converts to integers), `u8`/`usize` values by `ℕ`, `i32`/`i16`
by `ℤ`, and `Vec<T>` by `List T` (or by index functions where noted).
Each definition mirrors one Rust function and is named after it.
-/

namespace TerminalGfx

/-- Pixel with four 8-bit channels, from src/pixel.rs (struct Pixel). -/
structure Pixel where
  r : ℕ
  g : ℕ
  b : ℕ
  a : ℕ
deriving DecidableEq, Repr

/-- Values of the f32 computation in posterize_brightness when the divisor
can be zero: a finite rational, positive infinity, or NaN (negative
infinity cannot arise on the nonnegative inputs involved). Models the
IEEE-754 behaviour of the unguarded levels = 1 path. -/
inductive F32
  | fin (q : ℚ)
  | pinf
  | nan
deriving DecidableEq, Repr

namespace F32

/-- IEEE-754 f32 division, restricted to the cases reachable from
posterize_brightness with nonnegative finite numerators: x / 0 with x > 0 is
+inf, 0 / 0 is NaN, finite / +inf is 0. -/
def fdiv : F32 → F32 → F32
  | fin a, fin b => if b = 0 then (if a = 0 then nan else pinf) else fin (a / b)
  | fin _, pinf => fin 0
  | pinf, fin _ => pinf
  | pinf, pinf => nan
  | nan, _ => nan
  | _, nan => nan

/-- IEEE-754 f32 multiplication on the modelled values: 0 * inf = NaN,
nonzero finite * inf = inf (signs are positive in the reachable cases). -/
def fmul : F32 → F32 → F32
  | fin a, fin b => fin (a * b)
  | fin a, pinf => if a = 0 then nan else pinf
  | pinf, fin b => if b = 0 then nan else pinf
  | pinf, pinf => pinf
  | nan, _ => nan
  | _, nan => nan

/-- f32::round on the modelled values (round half away from zero; inputs
reaching it here are nonnegative, where this is floor(x + 1/2)). -/
def fround : F32 → F32
  | fin q => fin ((round q : ℤ) : ℚ)
  | pinf => pinf
  | nan => nan

/-- Rust saturating float-to-u8 cast: NaN goes to 0, +inf to 255, finite
values are clamped to [0, 255] and truncated toward zero. -/
def toU8 : F32 → ℕ
  | fin q => if q < 0 then 0 else min 255 (⌊q⌋).toNat
  | pinf => 255
  | nan => 0

end F32

/-- Step value 255.0 / (levels - 1) as computed by posterize_brightness,
in the float model: division by zero (levels = 1) yields +inf. -/
def posterizeStepF (levels : ℕ) : F32 :=
  F32.fdiv (F32.fin 255) (F32.fin ((levels - 1 : ℕ) : ℚ))

/-- posterize_brightness from src/framebuffer.rs in the float model,
covering the unguarded levels = 1 path (step = +inf, product = NaN,
saturating cast of NaN = 0). -/
def posterize_brightness_f32 (brightness levels : ℕ) : ℕ :=
  let step := posterizeStepF levels
  F32.toU8 (F32.fmul (F32.fround (F32.fdiv (F32.fin (brightness : ℚ)) step)) step)

/-!
Vector types from src/math.rs, components modelled as exact rationals.
Square roots are modelled partially: `ratSqrt` returns the exact square
root when it is rational (in particular on 0 and on perfect squares) and
`none` otherwise, so `length`/`normalize` are `Option`-valued in the
embedding. This loses nothing for the claims below, which only exercise
inputs with rational lengths.
-/

/-- Exact rational square root: some r with r * r = q when such a rational
exists, none otherwise (and none on negative inputs, where f32 sqrt is NaN). -/
def ratSqrt (q : ℚ) : Option ℚ :=
  if q < 0 then none
  else
    let n := q.num.toNat
    let d := q.den
    if n.sqrt * n.sqrt = n ∧ d.sqrt * d.sqrt = d then
      some ((n.sqrt : ℚ) / (d.sqrt : ℚ))
    else none

/-- Vec2 from src/math.rs. -/
structure Vec2 where
  x : ℚ
  y : ℚ
deriving DecidableEq, Repr

/-- Vec3 from src/math.rs. -/
structure Vec3 where
  x : ℚ
  y : ℚ
  z : ℚ
deriving DecidableEq, Repr

/-- Vec4 from src/math.rs. -/
structure Vec4 where
  x : ℚ
  y : ℚ
  z : ℚ
  w : ℚ
deriving DecidableEq, Repr

/-- Vec3.dot from src/math.rs. -/
def Vec3.dot (a b : Vec3) : ℚ := a.x * b.x + a.y * b.y + a.z * b.z

/-- Scalar multiplication (impl Mul of f32 for Vec2) from src/math.rs. -/
def Vec2.mulScalar (v : Vec2) (s : ℚ) : Vec2 := ⟨v.x * s, v.y * s⟩

/-- Scalar multiplication (impl Mul of f32 for Vec3) from src/math.rs. -/
def Vec3.mulScalar (v : Vec3) (s : ℚ) : Vec3 := ⟨v.x * s, v.y * s, v.z * s⟩

/-- Scalar multiplication (impl Mul of f32 for Vec4) from src/math.rs. -/
def Vec4.mulScalar (v : Vec4) (s : ℚ) : Vec4 := ⟨v.x * s, v.y * s, v.z * s, v.w * s⟩

/-- Vec2.length from src/math.rs: sqrt(x*x + y*y), partial in the model. -/
def Vec2.length (v : Vec2) : Option ℚ := ratSqrt (v.x * v.x + v.y * v.y)

/-- Vec3.length from src/math.rs: self.dot(self).sqrt(), partial in the model. -/
def Vec3.length (v : Vec3) : Option ℚ := ratSqrt (Vec3.dot v v)

/-- Vec4.length from src/math.rs, partial in the model. -/
def Vec4.length (v : Vec4) : Option ℚ :=
  ratSqrt (v.x * v.x + v.y * v.y + v.z * v.z + v.w * v.w)

/-- Vec2.normalize from src/math.rs: if len != 0.0 then self * (1.0/len)
else self. -/
def Vec2.normalize (v : Vec2) : Option Vec2 :=
  match v.length with
  | some len => if len ≠ 0 then some (v.mulScalar (1 / len)) else some v
  | none => none

/-- Vec3.normalize from src/math.rs: if len != 0.0 then self * (1.0/len)
else self. -/
def Vec3.normalize (v : Vec3) : Option Vec3 :=
  match v.length with
  | some len => if len ≠ 0 then some (v.mulScalar (1 / len)) else some v
  | none => none

/-- Vec4.normalize from src/math.rs: if len != 0.0 then self * (1.0/len)
else self. -/
def Vec4.normalize (v : Vec4) : Option Vec4 :=
  match v.length with
  | some len => if len ≠ 0 then some (v.mulScalar (1 / len)) else some v
  | none => none

/-- Componentwise clamp of an f32 value (Rust f32::clamp with an ordered
range, as used by vec3_to_pixel). -/
def clampQ (v lo hi : ℚ) : ℚ := if v < lo then lo else if hi < v then hi else v

/-- vec3_to_pixel from src/raymarch.rs lines 219-226: each channel is
clamp(v, 0, 1) * 255 cast with `as u8`. The cast is Rust saturating
float-to-int conversion, which truncates toward zero (modelled by F32.toU8
on a finite value). -/
def vec3_to_pixel (v : Vec3) : Pixel :=
  { r := F32.toU8 (F32.fin (clampQ v.x 0 1 * 255))
    g := F32.toU8 (F32.fin (clampQ v.y 0 1 * 255))
    b := F32.toU8 (F32.fin (clampQ v.z 0 1 * 255))
    a := 255 }

/-- Channel conversion as the specification describes it (round instead of
truncate); used only to compare against the source behaviour. -/
def specChannelRound (c : ℚ) : ℤ := round (clampQ c 0 1 * 255)

/-!
Ray marching loop from src/raymarch.rs lines 48-73:

    let max_steps = 200; let max_dist = 2000.0; let epsilon = 0.001;
    let mut t = 0.0;
    for _ in 0..max_steps {
        let p = origin + direction * t;
        let d = scene_sdf(p, time);
        if d < epsilon { ... return vec3_to_pixel(color); }
        t += d;
        if t > max_dist { break; }
    }
    (falls through to the sky color on a miss)

The scene distance along the ray, t to scene_sdf(origin + direction * t,
time), is abstracted as a function sdf on the ray parameter; this covers
every origin, direction and time. The loop either hits (returns the ray
parameter at the hit) or misses (steps exhausted or distance budget
exceeded, after which the sky color is returned).
-/

/-- One-parameter model of the sphere-tracing loop of ray_march: some t at
a hit, none at a miss. The fuel argument is the remaining step budget. -/
def marchLoop (sdf : ℚ → ℚ) (eps maxDist : ℚ) : ℕ → ℚ → Option ℚ
  | 0, _ => none
  | n + 1, t =>
    if sdf t < eps then some t
    else if t + sdf t > maxDist then none
    else marchLoop sdf eps maxDist n (t + sdf t)

/-- ray_march from src/raymarch.rs with the source constants: 200 steps,
epsilon 0.001 (fixed), max distance 2000. -/
def ray_march_hit (sdf : ℚ → ℚ) : Option ℚ :=
  marchLoop sdf (1 / 1000) 2000 200 0

/-!
Framebuffer from src/framebuffer.rs and TerminalBuffer from
src/terminalbuffer.rs. Vec fields are Lists; the ncurses chtype cell is a
natural number.
-/

/-- Framebuffer from src/framebuffer.rs: color pixels, a reserved z-buffer
and the derived brightness (luminance) buffer. -/
structure Framebuffer where
  width : ℕ
  height : ℕ
  data : List Pixel
  z_buffer : List ℚ
  brightness_buffer : List ℕ
deriving Repr

/-- Initial pixel value used by Framebuffer::new and clear. -/
def initialPixel : Pixel := { r := 0, g := 0, b := 0, a := 255 }

/-- Framebuffer::new from src/framebuffer.rs: all three arrays are freshly
allocated with width * height zero/default entries. -/
def Framebuffer.new (width height : ℕ) : Framebuffer :=
  { width := width
    height := height
    data := List.replicate (width * height) initialPixel
    z_buffer := List.replicate (width * height) 0
    brightness_buffer := List.replicate (width * height) 0 }

/-- Framebuffer::get_brightness from src/framebuffer.rs. -/
def Framebuffer.get_brightness (fb : Framebuffer) (x y : ℕ) : ℕ :=
  fb.brightness_buffer.getD (y * fb.width + x) 0

/-- Rust Vec::resize semantics: truncate to the new length, or pad at the
end with the given value; existing prefix elements are retained. -/
def listResize (l : List ℕ) (n : ℕ) (v : ℕ) : List ℕ :=
  if n ≤ l.length then l.take n else l ++ List.replicate (n - l.length) v

/-- ncurses chtype cell: character bits combined with the COLOR_PAIR
attribute. Modelled from the ncurses encoding (external to this
repository): attribute bits sit above the character byte; the claims
below do not depend on the exact packing. -/
def chtypeOf (ch : ℕ) (color_pair : ℤ) : ℕ :=
  Nat.lor ch (color_pair.toNat * 256)

/-- TerminalBuffer from src/terminalbuffer.rs: double-buffered grid of
chtype cells. -/
structure TerminalBuffer where
  width : ℕ
  height : ℕ
  front_buffer : List ℕ
  back_buffer : List ℕ
deriving DecidableEq, Repr

/-- TerminalBuffer::new from src/terminalbuffer.rs. -/
def TerminalBuffer.new (width height : ℕ) : TerminalBuffer :=
  { width := width
    height := height
    front_buffer := List.replicate (width * height) 0
    back_buffer := List.replicate (width * height) 0 }

/-- TerminalBuffer::clear from src/terminalbuffer.rs: fill the back buffer
with 0 (length unchanged). -/
def TerminalBuffer.clear (tb : TerminalBuffer) : TerminalBuffer :=
  { tb with back_buffer := List.replicate tb.back_buffer.length 0 }

/-- TerminalBuffer::set_char from src/terminalbuffer.rs: writes the combined
cell at y * width + x only when x < width and y < height, otherwise does
nothing. -/
def TerminalBuffer.set_char (tb : TerminalBuffer) (x y : ℕ) (ch : ℕ)
    (color_pair : ℤ) : TerminalBuffer :=
  if x < tb.width ∧ y < tb.height then
    { tb with back_buffer :=
        tb.back_buffer.set (y * tb.width + x) (chtypeOf ch color_pair) }
  else tb

/-- TerminalBuffer::swap_buffers from src/terminalbuffer.rs. -/
def TerminalBuffer.swap_buffers (tb : TerminalBuffer) : TerminalBuffer :=
  { tb with front_buffer := tb.back_buffer, back_buffer := tb.front_buffer }

/-- TerminalBuffer::resize from src/terminalbuffer.rs: early return on equal
dimensions, otherwise Vec::resize both buffers to the new size (padding
with 0, retaining the existing prefix) and then clear (which zeroes only
the back buffer). -/
def TerminalBuffer.resize (tb : TerminalBuffer) (new_width new_height : ℕ) :
    TerminalBuffer :=
  if tb.width = new_width ∧ tb.height = new_height then tb
  else
    TerminalBuffer.clear
      { width := new_width
        height := new_height
        front_buffer := listResize tb.front_buffer (new_width * new_height) 0
        back_buffer := listResize tb.back_buffer (new_width * new_height) 0 }

/-!
Color selection in the glyph compositor, src/terminal.rs. The gradient
entries are (magnitude, angle) pairs; magnitudes are compared against the
threshold 40.0, modelled exactly on ℚ.
-/

/-- A 3x3 framebuffer filled with white pixels (counterexample input). -/
def whiteFb : Framebuffer :=
  { width := 3
    height := 3
    data := List.replicate 9 { r := 255, g := 255, b := 255, a := 255 }
    z_buffer := List.replicate 9 0
    brightness_buffer := List.replicate 9 0 }

/-!
Edge detection from src/sobel.rs. The source stores per pixel
(magnitude, angle) = (sqrt(gx^2 + gy^2), atan2(gy, gx)) as f32. The model
carries the integer gradient vector (gx, gy) instead: both the magnitude
comparisons of non-maximum suppression and the angle-range tests quantize
exactly through it (f32 sqrt is strictly monotone on the reachable
integers, which are below 2^24, and the 22.5-degree-family boundaries are
irrational so no integer vector lies on one; the comparisons against
tan(22.5) = sqrt 2 - 1 and tan(67.5) = sqrt 2 + 1 are encoded by
squaring). Magnitude zero in the source is gradient (0,0) here which is
also exactly the f32 magnitude-zero case.
-/

/-- Sobel x kernel gx from src/sobel.rs (indexed kernel[dy][dx]). -/
def sobelGx : List (List ℤ) := [[-1, 0, 1], [-2, 0, 2], [-1, 0, 1]]

/-- Sobel y kernel gy from src/sobel.rs. -/
def sobelGy : List (List ℤ) := [[-1, -2, -1], [0, 0, 0], [1, 2, 1]]

/-- One pre-suppression gradient entry of compute_gradients: zero on the
border, 3x3 Sobel convolution of the brightness buffer inside. -/
def sobel_entry (fb : Framebuffer) (x y : ℕ) : ℤ × ℤ :=
  if x = 0 ∨ x = fb.width - 1 ∨ y = 0 ∨ y = fb.height - 1 then (0, 0)
  else
    (((List.range 3).map (fun dy => ((List.range 3).map (fun dx =>
        (fb.get_brightness (x + dx - 1) (y + dy - 1) : ℤ)
          * ((sobelGx.getD dy []).getD dx 0))).sum)).sum,
     ((List.range 3).map (fun dy => ((List.range 3).map (fun dx =>
        (fb.get_brightness (x + dx - 1) (y + dy - 1) : ℤ)
          * ((sobelGy.getD dy []).getD dx 0))).sum)).sum)

/-- The pre-suppression gradient vector of compute_gradients, row-major
(the parallel flat_map collect preserves this order). -/
def compute_gradients_raw (fb : Framebuffer) : List (ℤ × ℤ) :=
  (List.range fb.height).flatMap (fun y =>
    (List.range fb.width).map (fun x => sobel_entry fb x y))

/-- Squared gradient magnitude; mag >= mag comparisons on the f32
square roots coincide with comparisons of these integers. -/
def magSq (g : ℤ × ℤ) : ℤ := g.1 * g.1 + g.2 * g.2

/-- Exact integer test "the absolute value of a is below tan(22.5) * b"
for b > 0, i.e. |a| < (sqrt 2 - 1) b, squared to (|a| + b)^2 < 2 b^2. -/
def belowTanLo (a b : ℤ) : Prop := (|a| + b) ^ 2 < 2 * b ^ 2

/-- Exact integer test "a is above tan(22.5) * b and below tan(67.5) * b"
for a, b > 0: (a + b)^2 > 2 b^2 and (a <= b or (a - b)^2 < 2 b^2). -/
def betweenTans (a b : ℤ) : Prop :=
  (a + b) ^ 2 > 2 * b ^ 2 ∧ (a ≤ b ∨ (a - b) ^ 2 < 2 * b ^ 2)

instance (a b : ℤ) : Decidable (belowTanLo a b) := by
  unfold belowTanLo
  infer_instance

instance (a b : ℤ) : Decidable (betweenTans a b) := by
  unfold betweenTans
  infer_instance

/-- Neighbor offset (nx, ny) chosen by non-maximum suppression from the
angle atan2(gy, gx) in degrees, src/sobel.rs lines 52-60, translated to
exact integer conditions on the gradient vector:
range [-22.5, 22.5) or [157.5, 202.5) gives (1, 0); [22.5, 67.5) or
[-157.5, -112.5) gives (1, -1); [67.5, 112.5) or [-112.5, -67.5) gives
(0, -1); anything else, including the asymmetric leftover
(-180, -157.5), gives (1, 1). -/
def nmsOffset (g : ℤ × ℤ) : ℤ × ℤ :=
  let gx := g.1
  let gy := g.2
  if (0 < gx ∧ belowTanLo gy gx) ∨ (gx = 0 ∧ gy = 0)
      ∨ (gx < 0 ∧ 0 ≤ gy ∧ belowTanLo gy (-gx)) then
    (1, 0)
  else if (0 < gx ∧ 0 < gy ∧ betweenTans gy gx)
      ∨ (gx < 0 ∧ gy < 0 ∧ betweenTans (-gy) (-gx)) then
    (1, -1)
  else if (0 < gy ∧ belowTanLo gx gy) ∨ (gy < 0 ∧ belowTanLo gx (-gy)) then
    (0, -1)
  else
    (1, 1)

/-- apply_non_maximum_suppression from src/sobel.rs: border entries are
zeroed; an interior entry is kept when its magnitude is at least both
neighbors along the gradient-perpendicular offset (coordinates clamped to
the grid), zeroed otherwise. The entry carries (squared magnitude,
gradient vector); the source carries (sqrt of the former, atan2 of the
latter). -/
def apply_non_maximum_suppression (gradients : List (ℤ × ℤ))
    (width height : ℕ) : List (ℤ × (ℤ × ℤ)) :=
  (List.range height).flatMap (fun y =>
    (List.range width).map (fun x =>
      if x = 0 ∨ x = width - 1 ∨ y = 0 ∨ y = height - 1 then (0, (0, 0))
      else
        let g := gradients.getD (y * width + x) (0, 0)
        let o := nmsOffset g
        let prev_y := ((y : ℤ) - o.2).toNat
        let prev_x := ((x : ℤ) - o.1).toNat
        let next_y := (min ((y : ℤ) + o.2) ((height : ℤ) - 1)).toNat
        let next_x := (min ((x : ℤ) + o.1) ((width : ℤ) - 1)).toNat
        let prev := gradients.getD (prev_y * width + prev_x) (0, 0)
        let next := gradients.getD (next_y * width + next_x) (0, 0)
        if magSq prev ≤ magSq g ∧ magSq next ≤ magSq g then (magSq g, g)
        else (0, g)))

/-- compute_gradients from src/sobel.rs: Sobel convolution followed by
non-maximum suppression. -/
def compute_gradients (fb : Framebuffer) : List (ℤ × (ℤ × ℤ)) :=
  apply_non_maximum_suppression (compute_gradients_raw fb) fb.width fb.height

/-!
Tile scheduling of draw_test_scene, src/main.rs lines 175-206. The chunks
vector enumerates 8 x 8 tile origins ((0..height).step_by(8) cross
(0..width).step_by(8)); each tile is rendered into a local pixel vector by
a pure per-pixel computation (ray_march of the camera ray; it depends only
on the pixel coordinates, the frame dimensions and the elapsed time -- the
shader globals it locks are read into an unused variable), and the results
are then copied tile by tile into the shared framebuffer. The per-pixel
computation is abstracted as a function f of the coordinates; the order in
which tile results are folded into the buffer is quantified over all
permutations of the chunk list, covering every completion order and worker
count. The buffer is its row-major indexing function. -/

/-- Rust (0..n).step_by(8): the multiples of 8 below n (CHUNK_SIZE = 8 in
src/main.rs). -/
def stepBy8 (n : ℕ) : List ℕ := (List.range ((n + 7) / 8)).map (fun i => 8 * i)

/-- The chunks vector of draw_test_scene: tile origins (start_x, start_y),
outer loop over y. -/
def chunkStarts (w h : ℕ) : List (ℕ × ℕ) :=
  (stepBy8 h).flatMap (fun sy => (stepBy8 w).map (fun sx => (sx, sy)))

/-- Pixel coordinates of one tile, row-major, exactly the double loop
for y in start_y..min(start_y+8, height) { for x in start_x..min(start_x+8,
width) } used both to produce chunk_pixels and to merge them back. -/
def chunkCoords (c : ℕ × ℕ) (w h : ℕ) : List (ℕ × ℕ) :=
  (List.range' c.2 (min (c.2 + 8) h - c.2)).flatMap (fun y =>
    (List.range' c.1 (min (c.1 + 8) w - c.1)).map (fun x => (x, y)))

/-- Framebuffer::set_pixel on the row-major indexing function of the color
buffer: data[y * width + x] = pixel. -/
def bufSet (B : ℕ → Pixel) (i : ℕ) (p : Pixel) : ℕ → Pixel :=
  fun j => if j = i then p else B j

/-- Merging one tile result into the framebuffer: since chunk_pixels was
filled row-major by chunk_pixels.push(f x y) and is consumed in the same
order, the write at (x, y) stores f x y. -/
def writeChunk (f : ℕ → ℕ → Pixel) (w h : ℕ) (c : ℕ × ℕ) (B : ℕ → Pixel) :
    ℕ → Pixel :=
  (chunkCoords c w h).foldl
    (fun Bacc xy => bufSet Bacc (xy.2 * w + xy.1) (f xy.1 xy.2)) B

/-- The merge loop of draw_test_scene over a given ordering of the tiles. -/
def mergeChunks (f : ℕ → ℕ → Pixel) (w h : ℕ) (cs : List (ℕ × ℕ))
    (B : ℕ → Pixel) : ℕ → Pixel :=
  cs.foldl (fun Bacc c => writeChunk f w h c Bacc) B

end TerminalGfx

-- ==================== theorems ====================

namespace TerminalGfx

/-- C3 counterexample: the levels = 1 division by zero in
posterize_brightness is not guarded or special-cased. The step evaluates
to +infinity (an unguarded f32 divide-by-zero) and the non-finite value
flows on: the product rounded-quotient * step is NaN. -/
theorem posterize_levels_one_unguarded :
    posterizeStepF 1 = F32.pinf ∧
    F32.fmul (F32.fround (F32.fdiv (F32.fin (128 : ℚ)) (posterizeStepF 1)))
        (posterizeStepF 1) = F32.nan := by
  have hstep : posterizeStepF 1 = F32.pinf := by
    unfold posterizeStepF
    norm_num [F32.fdiv]
  refine ⟨hstep, ?_⟩
  rw [hstep]
  simp [F32.fdiv, F32.fround, F32.fmul]

/-- C3 (amended): posterize_brightness with levels = 1 performs the
division by zero without a guard (step = +infinity, product = NaN), but
the saturating u8 cast maps the NaN to 0, so the returned u8 is 0 for
every brightness: no non-finite value reaches the output, by cast
saturation rather than by a guard. -/
theorem posterize_levels_one_returns_zero (b : ℕ) :
    posterize_brightness_f32 b 1 = 0 := by
  unfold posterize_brightness_f32 posterizeStepF
  norm_num [F32.fdiv, F32.fround, F32.fmul, F32.toU8]

/-- C4 counterexample: the hit epsilon is not proportional to the traveled
distance. On a scene whose distance along the ray is constantly 1/2000,
ray_march hits at the very first step, with traveled distance t = 0, where
the scene distance 1/2000 is not below any threshold proportional to the
traveled distance (c * 0 = 0 for every factor c, and 1/2000 < 0 is false):
the code compares against the fixed epsilon 0.001 instead. -/
theorem ray_march_hit_at_zero_travel :
    ray_march_hit (fun _ => 1 / 2000) = some 0 ∧ ¬ ((1 : ℚ) / 2000 < 0) := by
  constructor
  · unfold ray_march_hit
    rw [marchLoop]
    norm_num
  · norm_num

/-- C4 (amended): for every scene distance function along the ray, the
sphere-tracing loop returns a hit exactly at a parameter where the scene
distance is below the fixed epsilon 0.001 (not an epsilon proportional to
the traveled distance); it returns a miss when the accumulated distance
would exceed the fixed maximum 2000, and also when the 200-step budget is
exhausted. -/
theorem ray_march_termination (sdf : ℚ → ℚ) :
    (∀ n t u, marchLoop sdf (1 / 1000) 2000 n t = some u → sdf u < 1 / 1000)
    ∧ (∀ n t, ¬ sdf t < 1 / 1000 → t + sdf t > 2000 →
        marchLoop sdf (1 / 1000) 2000 (n + 1) t = none)
    ∧ (∀ t, marchLoop sdf (1 / 1000) 2000 0 t = none) := by
  refine ⟨?_, ?_, ?_⟩
  · intro n
    induction n with
    | zero => intro t u h; simp [marchLoop] at h
    | succ m ih =>
        intro t u h
        rw [marchLoop] at h
        by_cases h1 : sdf t < 1 / 1000
        · rw [if_pos h1] at h
          cases h
          exact h1
        · rw [if_neg h1] at h
          by_cases h2 : t + sdf t > 2000
          · rw [if_pos h2] at h
            cases h
          · rw [if_neg h2] at h
            exact ih _ _ h
  · intro n t h1 h2
    rw [marchLoop, if_neg h1, if_pos h2]
  · intro t
    rw [marchLoop]

/-- C4 witness: the termination theorem applied at concrete inputs. A
constant scene distance 1/2000 yields a hit at parameter 0 (so the scene
distance there is below the fixed epsilon), and a constant scene distance
3000 yields an immediate miss by exceeding the maximum distance. -/
theorem ray_march_termination_witness :
    (fun _ : ℚ => (1 : ℚ) / 2000) 0 < 1 / 1000 ∧
    marchLoop (fun _ => 3000) (1 / 1000) 2000 200 0 = none := by
  constructor
  · exact (ray_march_termination (fun _ => 1 / 2000)).1 200 0 0
      (by rw [marchLoop]; norm_num)
  · exact (ray_march_termination (fun _ => 3000)).2.1 199 0
      (by norm_num) (by norm_num)

/-- On a nonnegative finite value the saturating cast takes the truncation
branch. -/
theorem toU8_fin_nonneg (q : ℚ) (h : 0 ≤ q) :
    F32.toU8 (F32.fin q) = min 255 (⌊q⌋).toNat := by
  simp only [F32.toU8]
  rw [if_neg (not_lt.mpr h)]

/-- C5 counterexample: vec3_to_pixel truncates instead of rounding. At the
color (1/2, 0, 0) the red channel 0.5 * 255 = 127.5 is converted to 127,
while rounding as the claim states would give 128. -/
theorem vec3_to_pixel_truncates :
    vec3_to_pixel ⟨1 / 2, 0, 0⟩ = ⟨127, 0, 0, 255⟩ ∧
    specChannelRound (1 / 2) = 128 := by
  have hc : clampQ (1 / 2 : ℚ) 0 1 = 1 / 2 := by unfold clampQ; norm_num
  have hc0 : clampQ (0 : ℚ) 0 1 = 0 := by unfold clampQ; norm_num
  constructor
  · unfold vec3_to_pixel
    simp only [hc, hc0]
    rw [toU8_fin_nonneg _ (by norm_num), toU8_fin_nonneg _ (by norm_num)]
    rw [show ⌊(1 / 2 : ℚ) * 255⌋ = 127 by
      rw [Int.floor_eq_iff]
      norm_num]
    norm_num
    rfl
  · unfold specChannelRound
    rw [hc, round_eq]
    rw [show ((1 : ℚ) / 2 * 255 + 1 / 2) = 128 by norm_num]
    rw [show ((128 : ℚ)) = ((128 : ℤ) : ℚ) by norm_num, Int.floor_intCast]

/-- C5 (amended): for every shaded color vector, vec3_to_pixel clamps each
channel to [0, 1] and converts it to an 8-bit channel by truncation toward
zero: each output channel equals floor(clamp(c, 0, 1) * 255), lies in
[0, 255], and is produced without wrapping (the saturating branches of the
cast never trigger on a clamped value); the conversion rounds down, not to
nearest. -/
theorem vec3_to_pixel_clamps_and_truncates (v : Vec3) :
    vec3_to_pixel v =
      { r := (⌊clampQ v.x 0 1 * 255⌋).toNat
        g := (⌊clampQ v.y 0 1 * 255⌋).toNat
        b := (⌊clampQ v.z 0 1 * 255⌋).toNat
        a := 255 } ∧
    (vec3_to_pixel v).r ≤ 255 ∧ (vec3_to_pixel v).g ≤ 255 ∧
    (vec3_to_pixel v).b ≤ 255 := by
  have key : ∀ c : ℚ, F32.toU8 (F32.fin (clampQ c 0 1 * 255))
      = (⌊clampQ c 0 1 * 255⌋).toNat ∧ (⌊clampQ c 0 1 * 255⌋).toNat ≤ 255 := by
    intro c
    have h0 : 0 ≤ clampQ c 0 1 := by
      unfold clampQ
      split
      · norm_num
      · split
        · norm_num
        · linarith [not_lt.mp (by assumption : ¬ c < 0)]
    have h1 : clampQ c 0 1 ≤ 1 := by
      unfold clampQ
      split
      · norm_num
      · split
        · norm_num
        · linarith [not_lt.mp (by assumption : ¬ 1 < c)]
    have hmul0 : (0 : ℚ) ≤ clampQ c 0 1 * 255 := by positivity
    have hmul1 : clampQ c 0 1 * 255 ≤ 255 := by nlinarith
    have hfl : (⌊clampQ c 0 1 * 255⌋).toNat ≤ 255 := by
      have h2 : ⌊clampQ c 0 1 * 255⌋ ≤ 255 := by
        calc ⌊clampQ c 0 1 * 255⌋ ≤ ⌊(255 : ℚ)⌋ := Int.floor_le_floor hmul1
          _ = 255 := by norm_num
      omega
    refine ⟨?_, hfl⟩
    rw [toU8_fin_nonneg _ hmul0]
    omega
  have heq : vec3_to_pixel v =
      { r := (⌊clampQ v.x 0 1 * 255⌋).toNat
        g := (⌊clampQ v.y 0 1 * 255⌋).toNat
        b := (⌊clampQ v.z 0 1 * 255⌋).toNat
        a := 255 } := by
    unfold vec3_to_pixel
    rw [(key v.x).1, (key v.y).1, (key v.z).1]
  rw [heq]
  exact ⟨rfl, (key v.x).2, (key v.y).2, (key v.z).2⟩

/-- C9: normalize applied to the zero vector takes the guarded else branch
(length sqrt(0) = 0) and returns the input unchanged for each of Vec2,
Vec3 and Vec4: the result is the zero vector, of length 0, with every
component the finite rational 0 (no NaN or infinity can be produced,
since the 1/len division is never evaluated). -/
theorem normalize_zero_vector :
    Vec2.normalize ⟨0, 0⟩ = some ⟨0, 0⟩ ∧
    Vec3.normalize ⟨0, 0, 0⟩ = some ⟨0, 0, 0⟩ ∧
    Vec4.normalize ⟨0, 0, 0, 0⟩ = some ⟨0, 0, 0, 0⟩ ∧
    Vec2.length ⟨0, 0⟩ = some 0 ∧
    Vec3.length ⟨0, 0, 0⟩ = some 0 ∧
    Vec4.length ⟨0, 0, 0, 0⟩ = some 0 := by
  have hz : ratSqrt 0 = some 0 := by
    unfold ratSqrt
    norm_num
  refine ⟨?_, ?_, ?_, ?_, ?_, ?_⟩ <;>
    simp [Vec2.normalize, Vec3.normalize, Vec4.normalize,
      Vec2.length, Vec3.length, Vec4.length, Vec3.dot, hz]

/-- C10: set_char with an out-of-bounds coordinate (x >= width or
y >= height) is a no-op: the guard fails, no index is computed and neither
buffer is modified (in particular there is no panic, since the write is
never reached). -/
theorem set_char_out_of_bounds (tb : TerminalBuffer) (x y ch : ℕ) (cp : ℤ)
    (h : tb.width ≤ x ∨ tb.height ≤ y) :
    tb.set_char x y ch cp = tb := by
  unfold TerminalBuffer.set_char
  rw [if_neg]
  omega

/-- C10 witness: writing at x = 5 on a 2 x 2 buffer leaves it unchanged. -/
theorem set_char_out_of_bounds_witness :
    (TerminalBuffer.new 2 2).width ≤ 5 ∧
    (TerminalBuffer.new 2 2).set_char 5 0 65 1 = TerminalBuffer.new 2 2 :=
  ⟨by decide, set_char_out_of_bounds (TerminalBuffer.new 2 2) 5 0 65 1
    (Or.inl (by decide))⟩

/-- Vec::resize always produces the requested length. -/
theorem listResize_length (l : List ℕ) (n v : ℕ) :
    (listResize l n v).length = n := by
  unfold listResize
  split
  · rw [List.length_take]
    omega
  · rw [List.length_append, List.length_replicate]
    omega

/-- C7 counterexample: after a resize the front cell buffer is not
zero/default: a 2 x 1 terminal buffer whose front buffer holds cells 5, 6
is resized to 3 x 1, and the resized front buffer is [5, 6, 0], retaining
the residual data from the prior size instead of being all zero. -/
theorem resize_front_buffer_residual :
    ((⟨2, 1, [5, 6], [1, 2]⟩ : TerminalBuffer).resize 3 1).front_buffer
      = [5, 6, 0] ∧
    ((⟨2, 1, [5, 6], [1, 2]⟩ : TerminalBuffer).resize 3 1).front_buffer
      ≠ List.replicate 3 0 := by
  constructor
  · decide
  · decide

/-- C7 (amended): after a resize from W x H to a different W2 x H2, every
buffer has length exactly W2 * H2 and the framebuffer arrays (freshly
allocated by Framebuffer::new) and the back cell buffer are all
zero/default; the front cell buffer however retains its previous contents
on the overlapping prefix (residual data) and is zero only on newly added
positions. -/
theorem resize_reallocates (tb : TerminalBuffer) (w h w2 h2 : ℕ)
    (hw : tb.width = w) (hh : tb.height = h)
    (hf : tb.front_buffer.length = w * h)
    (hne : ¬ (w = w2 ∧ h = h2)) :
    ((tb.resize w2 h2).front_buffer.length = w2 * h2
      ∧ (tb.resize w2 h2).back_buffer = List.replicate (w2 * h2) 0)
    ∧ (∀ i, w * h ≤ i → i < w2 * h2 →
        (tb.resize w2 h2).front_buffer.getD i 1 = 0)
    ∧ (∀ i, i < w * h → i < w2 * h2 →
        (tb.resize w2 h2).front_buffer.getD i 0 = tb.front_buffer.getD i 0)
    ∧ ((Framebuffer.new w2 h2).data = List.replicate (w2 * h2) initialPixel
      ∧ (Framebuffer.new w2 h2).z_buffer = List.replicate (w2 * h2) 0
      ∧ (Framebuffer.new w2 h2).brightness_buffer
          = List.replicate (w2 * h2) 0) := by
  have hcond : ¬ (tb.width = w2 ∧ tb.height = h2) := by
    rw [hw, hh]
    exact hne
  have hres : tb.resize w2 h2 = TerminalBuffer.clear
      { width := w2
        height := h2
        front_buffer := listResize tb.front_buffer (w2 * h2) 0
        back_buffer := listResize tb.back_buffer (w2 * h2) 0 } := by
    unfold TerminalBuffer.resize
    rw [if_neg hcond]
  rw [hres]
  unfold TerminalBuffer.clear
  refine ⟨⟨?_, ?_⟩, ?_, ?_, rfl, rfl, rfl⟩
  · exact listResize_length _ _ _
  · rw [listResize_length]
  · intro i hge hlt
    unfold listResize
    split
    · rename_i htake
      rw [hf] at htake
      omega
    · rename_i hgrow
      rw [List.getD_append_right _ _ _ _ (by omega)]
      rw [List.getD_eq_getElem?_getD, List.getElem?_replicate,
        if_pos (by rw [hf]; omega)]
      rfl
  · intro i hlt hlt2
    unfold listResize
    split
    · rw [List.getD_eq_getElem?_getD, List.getElem?_take, if_pos hlt2,
        ← List.getD_eq_getElem?_getD]
    · rw [List.getD_eq_getElem?_getD, List.getElem?_append,
        if_pos (by omega), ← List.getD_eq_getElem?_getD]

/-- C7 witness: the resize theorem applied to a concrete 2 x 1 buffer
resized to 3 x 1: lengths are 3, the back buffer is all zero, position 2
(newly added) is zero in the front buffer and position 0 retains the old
front cell. -/
theorem resize_reallocates_witness :
    ((⟨2, 1, [5, 6], [1, 2]⟩ : TerminalBuffer).resize 3 1).front_buffer.length = 3 ∧
    ((⟨2, 1, [5, 6], [1, 2]⟩ : TerminalBuffer).resize 3 1).back_buffer
      = List.replicate 3 0 ∧
    ((⟨2, 1, [5, 6], [1, 2]⟩ : TerminalBuffer).resize 3 1).front_buffer.getD 2 1 = 0 ∧
    ((⟨2, 1, [5, 6], [1, 2]⟩ : TerminalBuffer).resize 3 1).front_buffer.getD 0 0
      = (⟨2, 1, [5, 6], [1, 2]⟩ : TerminalBuffer).front_buffer.getD 0 0 := by
  have main := resize_reallocates (⟨2, 1, [5, 6], [1, 2]⟩ : TerminalBuffer)
    2 1 3 1 rfl rfl (by decide) (by decide)
  exact ⟨main.1.1, main.1.2, main.2.1 2 (by decide) (by decide),
    main.2.2.1 0 (by decide) (by decide)⟩

/-- On a uniform brightness buffer every Sobel entry vanishes: border
entries by definition, interior entries because the kernel weights sum to
zero against a constant signal. -/
theorem sobel_entry_uniform (fb : Framebuffer) (c x y : ℕ)
    (hx : x < fb.width) (hy : y < fb.height)
    (huni : ∀ i < fb.width * fb.height, fb.brightness_buffer.getD i 0 = c) :
    sobel_entry fb x y = (0, 0) := by
  by_cases hborder : x = 0 ∨ x = fb.width - 1 ∨ y = 0 ∨ y = fb.height - 1
  · unfold sobel_entry
    rw [if_pos hborder]
  · have hx1 : 1 ≤ x := by omega
    have hx2 : x + 1 < fb.width := by omega
    have hy1 : 1 ≤ y := by omega
    have hy2 : y + 1 < fb.height := by omega
    have hread : ∀ dx dy : ℕ, dx < 3 → dy < 3 →
        (fb.get_brightness (x + dx - 1) (y + dy - 1) : ℤ) = (c : ℤ) := by
      intro dx dy hdx hdy
      unfold Framebuffer.get_brightness
      have hidx : (y + dy - 1) * fb.width + (x + dx - 1) < fb.width * fb.height := by
        have h1 : y + dy - 1 ≤ fb.height - 1 := by omega
        have h2 : x + dx - 1 ≤ fb.width - 1 := by omega
        have h3 : (y + dy - 1) * fb.width ≤ (fb.height - 1) * fb.width :=
          Nat.mul_le_mul_right _ h1
        have h4 : (fb.height - 1) * fb.width + fb.width = fb.height * fb.width := by
          have h5 : fb.height - 1 + 1 = fb.height := by omega
          calc (fb.height - 1) * fb.width + fb.width
              = (fb.height - 1 + 1) * fb.width := by ring
            _ = fb.height * fb.width := by rw [h5]
        calc (y + dy - 1) * fb.width + (x + dx - 1)
            ≤ (fb.height - 1) * fb.width + (fb.width - 1) := by omega
          _ < fb.height * fb.width := by omega
          _ = fb.width * fb.height := Nat.mul_comm _ _
      rw [huni _ hidx]
    unfold sobel_entry
    rw [if_neg hborder]
    simp only [show List.range 3 = [0, 1, 2] from rfl, List.map_cons, List.map_nil,
      List.sum_cons, List.sum_nil, sobelGx, sobelGy]
    rw [hread 0 0 (by omega) (by omega), hread 1 0 (by omega) (by omega),
      hread 2 0 (by omega) (by omega), hread 0 1 (by omega) (by omega),
      hread 1 1 (by omega) (by omega), hread 2 1 (by omega) (by omega),
      hread 0 2 (by omega) (by omega), hread 1 2 (by omega) (by omega),
      hread 2 2 (by omega) (by omega)]
    simp only [List.getD_cons_zero, List.getD_cons_succ]
    rw [Prod.mk.injEq]
    constructor
    · ring
    · ring

/-- All pre-suppression gradients vanish on a uniform brightness buffer. -/
theorem compute_gradients_raw_uniform (fb : Framebuffer) (c : ℕ)
    (huni : ∀ i < fb.width * fb.height, fb.brightness_buffer.getD i 0 = c) :
    ∀ g ∈ compute_gradients_raw fb, g = ((0 : ℤ), (0 : ℤ)) := by
  intro g hg
  unfold compute_gradients_raw at hg
  obtain ⟨y, hy, hg2⟩ := List.mem_flatMap.mp hg
  obtain ⟨x, hx, rfl⟩ := List.mem_map.mp hg2
  exact sobel_entry_uniform fb c x y (List.mem_range.mp hx) (List.mem_range.mp hy) huni

/-- A list whose members all equal the default yields that value at every
getD lookup. -/
theorem getD_of_all_eq {α : Type} (l : List α) (v : α)
    (h : ∀ a ∈ l, a = v) (i : ℕ) : l.getD i v = v := by
  rw [List.getD_eq_getElem?_getD]
  cases hx : l[i]? with
  | none => rfl
  | some a =>
      have := List.getElem?_mem hx
      simp [h a this]

/-- The row-major grid list has one entry per pixel. -/
theorem grid_length {α : Type} (w h : ℕ) (f : ℕ → ℕ → α) :
    ((List.range h).flatMap (fun y => (List.range w).map (fun x => f x y))).length
      = h * w := by
  rw [List.length_flatMap]
  have h1 : (List.map (List.length ∘ fun y => (List.range w).map (fun x => f x y))
      (List.range h)) = List.map (fun _ => w) (List.range h) := by
    apply List.map_congr_left
    intro y hy
    simp
  rw [h1, List.map_const', List.sum_replicate, List.length_range, smul_eq_mul]

/-- C8: on a framebuffer whose luminance buffer is uniform, Sobel
convolution followed by non-maximum suppression yields a gradient field
with one entry per pixel whose magnitude is zero everywhere, border and
interior alike (every border entry is zeroed by definition; every interior
entry has zero gradient and survives suppression as magnitude zero). -/
theorem compute_gradients_uniform_zero (fb : Framebuffer) (c : ℕ)
    (huni : ∀ i < fb.width * fb.height, fb.brightness_buffer.getD i 0 = c) :
    (compute_gradients fb).length = fb.height * fb.width ∧
    ∀ e ∈ compute_gradients fb, e.1 = 0 := by
  have hraw := compute_gradients_raw_uniform fb c huni
  constructor
  · unfold compute_gradients apply_non_maximum_suppression
    exact grid_length _ _ _
  · intro e he
    unfold compute_gradients apply_non_maximum_suppression at he
    obtain ⟨y, hy, he2⟩ := List.mem_flatMap.mp he
    obtain ⟨x, hx, rfl⟩ := List.mem_map.mp he2
    by_cases hborder : x = 0 ∨ x = fb.width - 1 ∨ y = 0 ∨ y = fb.height - 1
    · rw [if_pos hborder]
    · rw [if_neg hborder]
      have hg : (compute_gradients_raw fb).getD (y * fb.width + x) (0, 0)
          = ((0 : ℤ), (0 : ℤ)) := getD_of_all_eq _ _ hraw _
      simp only [hg]
      have hprev : ∀ i, (compute_gradients_raw fb).getD i (0, 0)
          = ((0 : ℤ), (0 : ℤ)) := getD_of_all_eq _ _ hraw
      simp only [hprev]
      rw [if_pos]
      · rfl
      · constructor
        · exact le_refl _
        · exact le_refl _

/-- C8 witness: the uniform-buffer theorem applied to the all-white 3 x 3
framebuffer (uniform brightness 0): nine gradient entries, and the center
entry (index 4) has magnitude zero. -/
theorem compute_gradients_uniform_zero_witness :
    (compute_gradients whiteFb).length = 3 * 3 ∧
    ((compute_gradients whiteFb).getD 4 (1, (0, 0))).1 = 0 := by
  have main := compute_gradients_uniform_zero whiteFb 0 (by decide)
  refine ⟨main.1, ?_⟩
  have hlen : 4 < (compute_gradients whiteFb).length := by
    rw [main.1]
    show 4 < 3 * 3
    omega
  rw [List.getD_eq_getElem?_getD, List.getElem?_eq_getElem hlen]
  exact main.2 _ (List.getElem_mem hlen)

/-- Row-major indexing is injective on in-bounds columns. -/
theorem rowmajor_inj (w x x' y y' : ℕ) (hx : x < w) (hx' : x' < w)
    (h : y * w + x = y' * w + x') : x = x' ∧ y = y' := by
  have hm : (y * w + x) % w = x := by
    rw [Nat.add_comm, Nat.add_mul_mod_self_right, Nat.mod_eq_of_lt hx]
  have hm' : (y' * w + x') % w = x' := by
    rw [Nat.add_comm, Nat.add_mul_mod_self_right, Nat.mod_eq_of_lt hx']
  have hd : (y * w + x) / w = y := by
    rw [Nat.add_comm, Nat.add_mul_div_right _ _ (by omega : 0 < w),
      Nat.div_eq_of_lt hx, Nat.zero_add]
  have hd' : (y' * w + x') / w = y' := by
    rw [Nat.add_comm, Nat.add_mul_div_right _ _ (by omega : 0 < w),
      Nat.div_eq_of_lt hx', Nat.zero_add]
  constructor
  · rw [← hm, ← hm', h]
  · rw [← hd, ← hd', h]

/-- Membership in a step_by(8) range: the multiples of 8 below n. -/
theorem mem_stepBy8 (n s : ℕ) : s ∈ stepBy8 n ↔ s % 8 = 0 ∧ s < n := by
  unfold stepBy8
  rw [List.mem_map]
  constructor
  · rintro ⟨i, hi, rfl⟩
    have := List.mem_range.mp hi
    omega
  · rintro ⟨h8, hlt⟩
    exact ⟨s / 8, List.mem_range.mpr (by omega), by omega⟩

/-- Membership in the chunks vector: in-bounds tile origins aligned to 8. -/
theorem mem_chunkStarts (w h sx sy : ℕ) :
    (sx, sy) ∈ chunkStarts w h ↔
      (sx % 8 = 0 ∧ sx < w) ∧ (sy % 8 = 0 ∧ sy < h) := by
  unfold chunkStarts
  rw [List.mem_flatMap]
  constructor
  · rintro ⟨y, hy, hmem⟩
    obtain ⟨x, hx, heq⟩ := List.mem_map.mp hmem
    cases heq
    exact ⟨(mem_stepBy8 w sx).mp hx, (mem_stepBy8 h sy).mp hy⟩
  · rintro ⟨hx, hy⟩
    exact ⟨sy, (mem_stepBy8 h sy).mpr hy,
      List.mem_map.mpr ⟨sx, (mem_stepBy8 w sx).mpr hx, rfl⟩⟩

/-- Membership in a tile: the clipped 8 x 8 coordinate block. -/
theorem mem_chunkCoords (c : ℕ × ℕ) (w h x y : ℕ) :
    (x, y) ∈ chunkCoords c w h ↔
      (c.1 ≤ x ∧ x < c.1 + 8 ∧ x < w) ∧ (c.2 ≤ y ∧ y < c.2 + 8 ∧ y < h) := by
  unfold chunkCoords
  rw [List.mem_flatMap]
  constructor
  · rintro ⟨yy, hyy, hmem⟩
    obtain ⟨xx, hxx, heq⟩ := List.mem_map.mp hmem
    cases heq
    have h1 := List.mem_range'_1.mp hyy
    have h2 := List.mem_range'_1.mp hxx
    omega
  · rintro ⟨⟨hx1, hx2, hx3⟩, ⟨hy1, hy2, hy3⟩⟩
    refine ⟨y, List.mem_range'_1.mpr (by omega), List.mem_map.mpr
      ⟨x, List.mem_range'_1.mpr (by omega), rfl⟩⟩

/-- A sequence of pixel writes that all target other indices leaves a
buffer cell unchanged. -/
theorem foldl_bufSet_ne (l : List (ℕ × ℕ)) (f : ℕ → ℕ → Pixel) (w : ℕ)
    (B : ℕ → Pixel) (i : ℕ) (h : ∀ xy ∈ l, xy.2 * w + xy.1 ≠ i) :
    (l.foldl (fun Bacc xy => bufSet Bacc (xy.2 * w + xy.1) (f xy.1 xy.2)) B) i
      = B i := by
  induction l generalizing B with
  | nil => rfl
  | cons a t ih =>
      rw [List.foldl_cons]
      rw [ih _ (fun xy hxy => h xy (by simp [hxy]))]
      unfold bufSet
      rw [if_neg (fun hh => (h a (by simp)) hh.symm)]

/-- A sequence of pixel writes containing the write for (x, y), and in
which no other element aliases its index, stores f x y there. -/
theorem foldl_bufSet_hit (l : List (ℕ × ℕ)) (f : ℕ → ℕ → Pixel) (w : ℕ)
    (B : ℕ → Pixel) (x y : ℕ) (hmem : (x, y) ∈ l)
    (huniq : ∀ xy ∈ l, xy.2 * w + xy.1 = y * w + x → xy = (x, y)) :
    (l.foldl (fun Bacc xy => bufSet Bacc (xy.2 * w + xy.1) (f xy.1 xy.2)) B)
      (y * w + x) = f x y := by
  induction l generalizing B with
  | nil => cases hmem
  | cons a t ih =>
      rw [List.foldl_cons]
      by_cases ht : (x, y) ∈ t
      · exact ih _ ht (fun xy hxy => huniq xy (by simp [hxy]))
      · have ha : a = (x, y) := by
          rcases List.mem_cons.mp hmem with h1 | h1
          · exact h1.symm
          · exact absurd h1 ht
        subst ha
        rw [foldl_bufSet_ne]
        · unfold bufSet
          rw [if_pos rfl]
        · intro xy hxy heq
          exact ht (by rw [← huniq xy (by simp [hxy]) heq]; exact hxy)

/-- A tile other than the one covering (x, y) never writes index
y * w + x: tiles are disjoint. -/
theorem other_chunk_misses (w h x y : ℕ) (c : ℕ × ℕ)
    (hc : c ∈ chunkStarts w h) (hne : c ≠ (8 * (x / 8), 8 * (y / 8)))
    (xy : ℕ × ℕ) (hxy : xy ∈ chunkCoords c w h) (hx : x < w) :
    xy.2 * w + xy.1 ≠ y * w + x := by
  intro heq
  obtain ⟨x', y'⟩ := xy
  have hco := (mem_chunkCoords c w h x' y').mp hxy
  have hinj := rowmajor_inj w x' x y' y (by omega) hx heq
  obtain ⟨rfl, rfl⟩ := hinj
  have hcs := (mem_chunkStarts w h c.1 c.2).mp (by
    have hpair : c = (c.1, c.2) := rfl
    rw [← hpair]
    exact hc)
  apply hne
  have h1 : c.1 = 8 * (x' / 8) := by omega
  have h2 : c.2 = 8 * (y' / 8) := by omega
  rw [Prod.ext_iff]
  exact ⟨h1, h2⟩

/-- Merging any collection of tiles that excludes the covering tile of
(x, y) leaves that pixel unchanged. -/
theorem mergeChunks_misses (f : ℕ → ℕ → Pixel) (w h : ℕ) (cs : List (ℕ × ℕ))
    (B : ℕ → Pixel) (x y : ℕ) (hx : x < w)
    (hvalid : ∀ c ∈ cs, c ∈ chunkStarts w h)
    (hnone : ∀ c ∈ cs, c ≠ (8 * (x / 8), 8 * (y / 8))) :
    mergeChunks f w h cs B (y * w + x) = B (y * w + x) := by
  induction cs generalizing B with
  | nil => rfl
  | cons c t ih =>
      unfold mergeChunks
      rw [List.foldl_cons]
      have step : writeChunk f w h c B (y * w + x) = B (y * w + x) := by
        unfold writeChunk
        exact foldl_bufSet_ne _ f w B _ (fun xy hxy =>
          other_chunk_misses w h x y c (hvalid c (by simp)) (hnone c (by simp))
            xy hxy hx)
      have hrec := ih (writeChunk f w h c B) (fun c2 h2 => hvalid c2 (by simp [h2]))
        (fun c2 h2 => hnone c2 (by simp [h2]))
      unfold mergeChunks at hrec
      rw [hrec, step]

/-- Merging any tile list that contains the covering tile of (x, y), with
every element a valid tile origin, stores the pure per-pixel value f x y
at that pixel, whatever the order and whatever the initial buffer. -/
theorem mergeChunks_value (f : ℕ → ℕ → Pixel) (w h : ℕ) (cs : List (ℕ × ℕ))
    (B : ℕ → Pixel) (x y : ℕ) (hx : x < w) (hy : y < h)
    (hmem : (8 * (x / 8), 8 * (y / 8)) ∈ cs)
    (hvalid : ∀ c ∈ cs, c ∈ chunkStarts w h) :
    mergeChunks f w h cs B (y * w + x) = f x y := by
  induction cs generalizing B with
  | nil => cases hmem
  | cons c t ih =>
      unfold mergeChunks
      rw [List.foldl_cons]
      by_cases ht : (8 * (x / 8), 8 * (y / 8)) ∈ t
      · have hrec := ih (writeChunk f w h c B) ht
          (fun c2 h2 => hvalid c2 (by simp [h2]))
        unfold mergeChunks at hrec
        rw [hrec]
      · have hc : c = (8 * (x / 8), 8 * (y / 8)) := by
          rcases List.mem_cons.mp hmem with h1 | h1
          · exact h1.symm
          · exact absurd h1 ht
        subst hc
        have hrest : mergeChunks f w h t
            (writeChunk f w h (8 * (x / 8), 8 * (y / 8)) B) (y * w + x)
            = writeChunk f w h (8 * (x / 8), 8 * (y / 8)) B (y * w + x) :=
          mergeChunks_misses f w h t _ x y hx
            (fun c2 h2 => hvalid c2 (by simp [h2]))
            (fun c2 h2 => by
              intro heqc
              exact ht (by rw [← heqc]; exact h2))
        unfold mergeChunks at hrest
        rw [hrest]
        unfold writeChunk
        apply foldl_bufSet_hit
        · rw [mem_chunkCoords]
          constructor
          · refine ⟨by omega, by omega, hx⟩
          · refine ⟨by omega, by omega, hy⟩
        · intro xy hxy heq
          obtain ⟨x', y'⟩ := xy
          have hco := (mem_chunkCoords _ w h x' y').mp hxy
          have hinj := rowmajor_inj w x' x y' y (by omega) hx heq
          obtain ⟨rfl, rfl⟩ := hinj
          rfl

/-- C1: rendering one frame is deterministic with respect to parallel
scheduling. For every per-pixel color function f (the pure ray_march of
the camera ray, a function of pixel coordinates, frame dimensions and
time only), every framebuffer size, every initial buffer content and
every order cs in which the tiles are folded into the framebuffer (any
permutation of the chunk list, covering every tile completion order and
worker count), the merged color buffer holds exactly f x y at every
in-bounds pixel -- so any two schedules produce identical buffers. -/
theorem draw_test_scene_deterministic (f : ℕ → ℕ → Pixel) (w h : ℕ)
    (cs : List (ℕ × ℕ)) (hperm : cs.Perm (chunkStarts w h))
    (B : ℕ → Pixel) (x y : ℕ) (hx : x < w) (hy : y < h) :
    mergeChunks f w h cs B (y * w + x) = f x y := by
  apply mergeChunks_value f w h cs B x y hx hy
  · exact hperm.mem_iff.mpr ((mem_chunkStarts w h _ _).mpr
      ⟨⟨by omega, by omega⟩, ⟨by omega, by omega⟩⟩)
  · intro c hc
    exact hperm.mem_iff.mp hc

/-- C1 witness: a 10 x 9 frame has tiles (0,0), (8,0), (0,8), (8,8);
merging them in a reversed order over an arbitrary garbage buffer still
yields the per-pixel value at pixel (9, 8). -/
theorem draw_test_scene_deterministic_witness :
    mergeChunks (fun x y => ⟨x, y, 0, 255⟩) 10 9 [(8, 8), (0, 8), (8, 0), (0, 0)]
      (fun _ => ⟨9, 9, 9, 9⟩) (8 * 10 + 9) = ⟨9, 8, 0, 255⟩ :=
  draw_test_scene_deterministic (fun x y => ⟨x, y, 0, 255⟩) 10 9 _ (by decide)
    (fun _ => ⟨9, 9, 9, 9⟩) 9 8 (by decide) (by decide)

end TerminalGfx
